import Mathlib

/-!
Verification of the dataset splitting utilities of
`snorkel/classification/data.py`: the `split_data` partitioner with its
helpers `fractions_to_counts` and `slice_data`, and the label validation of
`DictDataset`.  Python numbers are modelled by exact rationals, the global
random generator by an explicit state threaded through the computation, and
raised exceptions by `Except` values.
-/

set_option maxRecDepth 8000

attribute [local semireducible] Rat.add Rat.mul Rat.inv Rat.sub

deriving instance DecidableEq for Except

/-- Tagged numeric entry of a split specification: the Python code
distinguishes int entries from float entries with isinstance checks. -/
inductive SplitVal where
  | int (z : ℤ)
  | float (q : ℚ)
deriving DecidableEq

/-- isinstance check of a split entry against int. -/
def SplitVal.isInt : SplitVal → Bool
  | .int _ => true
  | .float _ => false

/-- isinstance check of a split entry against float. -/
def SplitVal.isFloat : SplitVal → Bool
  | .int _ => false
  | .float _ => true

/-- Numeric value of a split entry, as an exact rational. -/
def SplitVal.toQ : SplitVal → ℚ
  | .int z => (z : ℚ)
  | .float q => q

/-- Round half to even, the rounding used by numpy.round. -/
def roundHalfEven (q : ℚ) : ℤ :=
  if q - Int.floor q < 1 / 2 then Int.floor q
  else if 1 / 2 < q - Int.floor q then Int.floor q + 1
  else if Int.floor q % 2 = 0 then Int.floor q else Int.floor q + 1

/-- Helper of split_data: maps each fraction to the rounding of n times it,
then overwrites the last count with n minus the sum of the earlier counts. -/
def fractions_to_counts (fracs : List ℚ) (n : ℕ) : List ℤ :=
  let counts := fracs.map (fun frac => roundHalfEven ((n : ℚ) * frac))
  counts.dropLast ++ [(n : ℤ) - counts.dropLast.sum]

/-- Running sums starting from c, one output entry per input entry. -/
def cumsumFrom (c : ℤ) : List ℤ → List ℤ
  | [] => []
  | x :: t => (c + x) :: cumsumFrom (c + x) t

/-- Model of numpy.cumsum on a list of integers. -/
def npCumsum (l : List ℤ) : List ℤ := cumsumFrom 0 l

/-- Resolution of a Python slice endpoint against length m: negative values
count from the end, and the result is clamped into the interval from 0 to m. -/
def pyIdx (x : ℤ) (m : ℕ) : ℕ :=
  (if x < 0 then max (x + m) 0 else min x m).toNat

/-- Python slice l[a:b] with step one: negative endpoints count from the end
of the list and the resolved endpoints are clamped to the list bounds. -/
def pySlice (l : List α) (a b : ℤ) : List α :=
  (l.drop (pyIdx a l.length)).take (pyIdx b l.length - pyIdx a l.length)

/-- Slices of a pool between consecutive cumulative boundaries: a zero is
prepended to the counts, cumulative sums are taken, and slice i runs between
boundaries i and i plus one. -/
def sliceRanges (pool : List α) (counts : List ℤ) (numSplits : ℕ) : List (List α) :=
  (List.range numSplits).map (fun i =>
    pySlice pool ((npCumsum (0 :: counts)).getD i 0) ((npCumsum (0 :: counts)).getD (i + 1) 0))

/-- Per-pool assignment step of split_data: counts from the fractions and the
pool size, then one contiguous slice of the pool per split. -/
def poolPieces (fracs : List ℚ) (numSplits : ℕ) (pool : List α) : List (List α) :=
  sliceRanges pool (fractions_to_counts fracs pool.length) numSplits

/-- Linear congruential step standing in for the state transition of the
global generator of the random module: one state value per draw. -/
def lcgNext (g : ℕ) : ℕ := (1103515245 * g + 12345) % 2147483648

/-- Exchange of the entries at positions i and j, as the Python tuple
assignment of the two reads followed by the two writes. -/
def listSwap (l : List α) (i j : ℕ) : List α :=
  match l[i]?, l[j]? with
  | some a, some b => (l.set i b).set j a
  | _, _ => l

/-- Body of random.shuffle: a Fisher and Yates walk from the last position
down to position one, swapping position i with a drawn position bounded by i. -/
def shuffleAux : List α → ℕ → ℕ → List α × ℕ
  | l, 0, g => (l, g)
  | l, i + 1, g => shuffleAux (listSwap l (i + 1) (lcgNext g % (i + 2))) i (lcgNext g)

/-- Model of random.shuffle of a list given the generator state, returning the
permuted list together with the advanced state. -/
def pyShuffle (l : List α) (g : ℕ) : List α × ℕ := shuffleAux l (l.length - 1) g

/-- Append index i to the pool keyed by value v, creating the key at the end
on first sight: one step of the defaultdict grouping of split_data. -/
def addToPool : List (ℤ × List ℕ) → ℤ → ℕ → List (ℤ × List ℕ)
  | [], v, i => [(v, [i])]
  | (k, xs) :: rest, v, i =>
    if k = v then (k, xs ++ [i]) :: rest
    else (k, xs) :: addToPool rest v i

/-- Grouping of row indices by stratification value, pools ordered by first
appearance of the value, indices in original order inside each pool. -/
def buildPools (lab : List ℤ) : List (List ℕ) :=
  (lab.enum.foldl (fun acc p => addToPool acc p.2 p.1) []).map Prod.snd

/-- Sampling pools: the full index range when unstratified, else one pool per
distinct stratification value. -/
def makePools (n : ℕ) (stratify_by : Option (List ℤ)) : List (List ℕ) :=
  match stratify_by with
  | none => [List.range n]
  | some lab => buildPools lab

/-- Pool loop of split_data: optionally shuffle the pool, slice it along the
cumulative counts, and extend each split assignment with its piece. -/
def assignAll (fracs : List ℚ) (numSplits : ℕ) (doShuf : Bool) :
    List (List ℕ) → List (List ℕ) → ℕ → List (List ℕ) × ℕ
  | acc, [], g => (acc, g)
  | acc, pool :: rest, g =>
    let pg := if doShuf then pyShuffle pool g else (pool, g)
    assignAll fracs numSplits doShuf
      (acc.zipWith (· ++ ·) (poolPieces fracs numSplits pg.1)) rest pg.2

/-- Kinds of input collection split_data accepts: plain ordered sequences
(list or tuple), fancy indexable arrays (numpy, scipy sparse, torch tensors),
and length bearing containers supporting neither slicing style. -/
inductive ArrLike (α : Type) where
  | seq (l : List α)
  | arr (l : List α)
  | unsupported (l : List α)
deriving DecidableEq

/-- Python len of a collection. -/
def arrLen : ArrLike α → ℕ
  | .seq l => l.length
  | .arr l => l.length
  | .unsupported l => l.length

/-- Python exception kinds surfaced by this code. -/
inductive PyError where
  | valueError (msg : String)
  | indexError
  | typeError (msg : String)
deriving DecidableEq

/-- slice_data helper of split_data: sequences are filtered by membership of
the position in the index set, keeping original order; arrays are fancy
indexed in index order; anything else raises the descriptive wrapper
exception. -/
def slice_data (data : ArrLike α) (indices : List ℕ) : Except PyError (ArrLike α) :=
  match data with
  | .seq l => .ok (.seq ((l.enum.filter (fun p => p.1 ∈ indices)).map Prod.snd))
  | .arr l =>
    if indices.all (· < l.length) then .ok (.arr (indices.filterMap (fun i => l[i]?)))
    else .error .indexError
  | .unsupported _ =>
    .error (.typeError
      "split_data() currently only accepts inputs of type tuple, list, np.ndarray, scipy.sparse, or torch.Tensor")

/-- Validation and normalization of the split specification: all-int entries
must sum to n and are each divided by n, all-float entries must sum to one
and are used as is, any other list is rejected. -/
def resolveFracs (splits : List SplitVal) (n : ℕ) : Except PyError (List ℚ) :=
  if splits.all SplitVal.isInt then
    if (splits.map SplitVal.toQ).sum = (n : ℚ) then
      .ok (splits.map (fun s => s.toQ / (n : ℚ)))
    else .error (.valueError "Provided split counts must sum to n.")
  else if splits.all SplitVal.isFloat then
    if (splits.map SplitVal.toQ).sum = 1 then .ok (splits.map SplitVal.toQ)
    else .error (.valueError "Split fractions must sum to 1.0.")
  else .error (.valueError "Splits must contain all ints or all floats.")

/-- Arguments of split_data. -/
structure SplitArgs (α : Type) where
  inputs : List (ArrLike α)
  splits : List SplitVal
  shuffle : Bool
  stratify_by : Option (List ℤ)
  index_only : Bool
  seed : Option ℕ

/-- Result shapes of split_data: index lists only, a flat list of slices for a
single input collection, or one list of slices per input collection. -/
inductive SplitResult (α : Type) where
  | indices (a : List (List ℕ))
  | single (s : List (ArrLike α))
  | multi (s : List (List (ArrLike α)))
deriving DecidableEq

/-- random.seed: an explicit seed replaces the ambient generator state. -/
def initSeed (g : ℕ) : Option ℕ → ℕ
  | some s => s
  | none => g

/-- Error propagating map, evaluating left to right as the Python loops do. -/
def mapE (f : β → Except PyError γ) : List β → Except PyError (List γ)
  | [] => .ok []
  | x :: t =>
    match f x with
    | .error e => .error e
    | .ok y =>
      match mapE f t with
      | .error e => .error e
      | .ok ys => .ok (y :: ys)

/-- Slicing stage of split_data: for every input collection, the list of its
slices, one per split. -/
def sliceAll (inputs : List (ArrLike α)) (numSplits : ℕ) (A : List (List ℕ)) :
    Except PyError (List (List (ArrLike α))) :=
  mapE (fun data => mapE (fun i => slice_data data (A.getD i [])) (List.range numSplits)) inputs

/-- Output shaping of split_data: a single input collection gets its flat
list of slices, several input collections get one list of slices each. -/
def packOutputs (outs : List (List (ArrLike α))) : SplitResult α :=
  match outs with
  | [o] => .single o
  | _ => .multi outs

/-- Model of split_data: seed the generator, read n off the first input
collection, validate the split specification, build pools, shuffle and slice
each pool into index assignments, then return indices or sliced data. -/
def split_data (g0 : ℕ) (a : SplitArgs α) : Except PyError (SplitResult α) :=
  let g1 := initSeed g0 a.seed
  match a.inputs with
  | [] => .error .indexError
  | i0 :: _ =>
    match resolveFracs a.splits (arrLen i0) with
    | .error e => .error e
    | .ok fracs =>
      let pools := makePools (arrLen i0) a.stratify_by
      let doShuf := a.shuffle || a.stratify_by.isSome
      let A := (assignAll fracs a.splits.length doShuf
        (List.replicate a.splits.length []) pools g1).1
      if a.index_only then .ok (.indices A)
      else
        match sliceAll a.inputs a.splits.length A with
        | .error e => .error e
        | .ok outs => .ok (packOutputs outs)

/-- Minimal model of Python runtime values held in a label dict: what matters
is whether a value is a torch.Tensor and the printable name of its type. -/
inductive PyVal where
  | tensor (data : List ℤ)
  | ndarray (data : List ℤ)
  | pyList (data : List ℤ)
  | pyStr (s : String)
deriving DecidableEq

/-- isinstance check of a value against torch.Tensor. -/
def PyVal.isTensor : PyVal → Bool
  | .tensor _ => true
  | _ => false

/-- Printable type name used in the label error message. -/
def PyVal.typeName : PyVal → String
  | .tensor _ => "torch.Tensor"
  | .ndarray _ => "numpy.ndarray"
  | .pyList _ => "list"
  | .pyStr _ => "str"

/-- Dataset wrapper holding named feature fields and named label fields. -/
structure DictDataset where
  name : String
  split : String
  X_dict : List (String × PyVal)
  Y_dict : List (String × PyVal)
deriving DecidableEq

/-- Constructor of DictDataset: iterates over the label dict and raises at the
first label value that is not a torch.Tensor, naming the field and the type. -/
def DictDataset.make (name split : String) (X_dict Y_dict : List (String × PyVal)) :
    Except PyError DictDataset :=
  match Y_dict.find? (fun p => ! p.2.isTensor) with
  | some p =>
    .error (.valueError
      ("Label " ++ p.1 ++ " should be torch.Tensor, not " ++ p.2.typeName ++ "."))
  | none => .ok ⟨name, split, X_dict, Y_dict⟩

/-- Check that a split entry is a non-negative integer count. -/
def SplitVal.isNonnegInt : SplitVal → Bool
  | .int z => decide (0 ≤ z)
  | .float _ => false

/-- Check that a split entry is a positive float fraction. -/
def SplitVal.isPosFloat : SplitVal → Bool
  | .int _ => false
  | .float q => decide (0 < q)

/-- Valid split specification in the sense of the data model: at least one
entry, and either all non-negative integer counts summing to n or all
positive float fractions summing to one. -/
def ValidSpec (splits : List SplitVal) (n : ℕ) : Prop :=
  splits ≠ [] ∧
    ((splits.all SplitVal.isNonnegInt = true ∧ (splits.map SplitVal.toQ).sum = (n : ℚ)) ∨
     (splits.all SplitVal.isPosFloat = true ∧ (splits.map SplitVal.toQ).sum = 1))

/-! Lemmas about swapping and shuffling: `pyShuffle` returns a permutation. -/

open List

/-- Setting position k of a list to x is, up to permutation, consing x onto
the list with position k removed. -/
theorem set_perm_cons (t : List α) (k : ℕ) (x b : α) (h : t[k]? = some b) :
    t.set k x ~ x :: t.eraseIdx k := by
  induction t generalizing k with
  | nil => simp at h
  | cons y s ih =>
    cases k with
    | zero => simp [List.set]
    | succ k =>
      simp only [List.getElem?_cons_succ] at h
      calc (y :: s).set (k + 1) x = y :: s.set k x := rfl
        _ ~ y :: (x :: s.eraseIdx k) := (ih k h).cons y
        _ ~ x :: (y :: s.eraseIdx k) := List.Perm.swap x y _
        _ = x :: (y :: s).eraseIdx (k + 1) := rfl

/-- A list is a permutation of its entry at k consed onto the remainder. -/
theorem perm_cons_eraseIdx (t : List α) (k : ℕ) (b : α) (h : t[k]? = some b) :
    t ~ b :: t.eraseIdx k := by
  induction t generalizing k with
  | nil => simp at h
  | cons y s ih =>
    cases k with
    | zero =>
      simp only [List.getElem?_cons_zero, Option.some.injEq] at h
      subst h
      exact List.Perm.refl _
    | succ k =>
      simp only [List.getElem?_cons_succ] at h
      calc y :: s ~ y :: (b :: s.eraseIdx k) := (ih k h).cons y
        _ ~ b :: (y :: s.eraseIdx k) := List.Perm.swap b y _
        _ = b :: (y :: s).eraseIdx (k + 1) := rfl

/-- The double update realizing an exchange of two entries is a permutation. -/
theorem set_set_perm (l : List α) (i j : ℕ) (a b : α)
    (hi : l[i]? = some a) (hj : l[j]? = some b) : (l.set i b).set j a ~ l := by
  induction l generalizing i j with
  | nil => simp at hi
  | cons x t ih =>
    cases i with
    | zero =>
      simp only [List.getElem?_cons_zero, Option.some.injEq] at hi
      subst hi
      cases j with
      | zero =>
        simp only [List.getElem?_cons_zero, Option.some.injEq] at hj
        subst hj
        simp [List.set]
      | succ k =>
        simp only [List.getElem?_cons_succ] at hj
        calc ((x :: t).set 0 b).set (k + 1) x = b :: t.set k x := rfl
          _ ~ b :: (x :: t.eraseIdx k) := (set_perm_cons t k x b hj).cons b
          _ ~ x :: (b :: t.eraseIdx k) := List.Perm.swap x b _
          _ ~ x :: t := ((perm_cons_eraseIdx t k b hj).symm).cons x
    | succ m =>
      simp only [List.getElem?_cons_succ] at hi
      cases j with
      | zero =>
        simp only [List.getElem?_cons_zero, Option.some.injEq] at hj
        subst hj
        calc ((x :: t).set (m + 1) x).set 0 a = a :: t.set m x := rfl
          _ ~ a :: (x :: t.eraseIdx m) := (set_perm_cons t m x a hi).cons a
          _ ~ x :: (a :: t.eraseIdx m) := List.Perm.swap x a _
          _ ~ x :: t := ((perm_cons_eraseIdx t m a hi).symm).cons x
      | succ k =>
        simp only [List.getElem?_cons_succ] at hj
        calc ((x :: t).set (m + 1) b).set (k + 1) a = x :: (t.set m b).set k a := rfl
          _ ~ x :: t := (ih m k hi hj).cons x

/-- listSwap permutes the list. -/
theorem listSwap_perm (l : List α) (i j : ℕ) : listSwap l i j ~ l := by
  unfold listSwap
  cases hi : l[i]? with
  | none => simp
  | some a =>
    cases hj : l[j]? with
    | none => simp
    | some b => exact set_set_perm l i j a b hi hj

/-- Every round of the shuffle walk permutes the list. -/
theorem shuffleAux_perm (i : ℕ) : ∀ (l : List α) (g : ℕ), (shuffleAux l i g).1 ~ l := by
  induction i with
  | zero => intro l g; exact List.Perm.refl _
  | succ i ih =>
    intro l g
    exact (ih (listSwap l (i + 1) (lcgNext g % (i + 2))) (lcgNext g)).trans
      (listSwap_perm l (i + 1) _)

/-- The shuffled list is a permutation of the input list. -/
theorem pyShuffle_perm (l : List α) (g : ℕ) : (pyShuffle l g).1 ~ l :=
  shuffleAux_perm (l.length - 1) l g

/-! Lemmas about Python slicing. -/

/-- Characterization of a non-negative slice endpoint. -/
theorem pyIdx_of_nonneg (x : ℤ) (m : ℕ) (hx : 0 ≤ x) : pyIdx x m = min x.toNat m := by
  unfold pyIdx
  rw [if_neg (by omega)]
  omega

/-- pySlice of the empty list is empty. -/
theorem pySlice_nil (a b : ℤ) : pySlice ([] : List α) a b = [] := by
  simp [pySlice]

/-- pySlice from zero with a non-negative endpoint is a prefix. -/
theorem pySlice_zero (l : List α) (b : ℤ) (hb : 0 ≤ b) :
    pySlice l 0 b = l.take b.toNat := by
  unfold pySlice
  rw [pyIdx_of_nonneg 0 _ le_rfl, pyIdx_of_nonneg b _ hb]
  simp only [Int.toNat_zero, Nat.zero_min, List.drop_zero, Nat.sub_zero]
  rw [List.take_eq_take]
  omega

/-- pySlice is empty when the left endpoint reaches the end of the list. -/
theorem pySlice_ge_empty (l : List α) (a b : ℤ) (ha : 0 ≤ a)
    (hl : (l.length : ℤ) ≤ a) : pySlice l a b = [] := by
  unfold pySlice
  rw [pyIdx_of_nonneg a _ ha]
  have : min a.toNat l.length = l.length := by omega
  rw [this, List.drop_length]
  simp

/-- Shifting both endpoints of a slice by a non-negative offset is slicing the
dropped list. -/
theorem pySlice_shift (l : List α) (c a b : ℤ) (hc : 0 ≤ c) (ha : 0 ≤ a) (hb : 0 ≤ b) :
    pySlice l (c + a) (c + b) = pySlice (l.drop c.toNat) a b := by
  by_cases hcm : c ≤ (l.length : ℤ)
  · unfold pySlice
    have hlen : (l.drop c.toNat).length = l.length - c.toNat := List.length_drop _ _
    have e1 : pyIdx (c + a) l.length = pyIdx a (l.drop c.toNat).length + c.toNat := by
      rw [hlen, pyIdx_of_nonneg _ _ (by omega), pyIdx_of_nonneg a _ ha]
      omega
    have e2 : pyIdx (c + b) l.length = pyIdx b (l.drop c.toNat).length + c.toNat := by
      rw [hlen, pyIdx_of_nonneg _ _ (by omega), pyIdx_of_nonneg b _ hb]
      omega
    rw [List.drop_drop, e1, e2]
    congr 1
    · omega
    · congr 1
      omega
  · have h1 : l.drop c.toNat = [] := List.drop_eq_nil_of_le (by omega)
    rw [h1, pySlice_nil]
    exact pySlice_ge_empty l (c + a) (c + b) (by omega) (by omega)

/-! Lemmas about cumulative sums. -/

/-- Length of a running sum list. -/
theorem length_cumsumFrom (c : ℤ) (l : List ℤ) : (cumsumFrom c l).length = l.length := by
  induction l generalizing c with
  | nil => rfl
  | cons x t ih => simp [cumsumFrom, ih]

/-- Running sums from a shifted start are shifted running sums. -/
theorem cumsumFrom_shift (l : List ℤ) (c b : ℤ) :
    cumsumFrom (c + b) l = (cumsumFrom b l).map (fun y => c + y) := by
  induction l generalizing b with
  | nil => rfl
  | cons x t ih =>
    show (c + b + x) :: cumsumFrom (c + b + x) t
        = ((b + x) :: cumsumFrom (b + x) t).map (fun y => c + y)
    have e : c + b + x = c + (b + x) := by ring
    rw [List.map_cons, ← ih (b + x), e]

/-- Membership in the front of a list is preserved by pushing an element. -/
theorem mem_dropLast_cons {y x : α} {t : List α} (h : y ∈ t.dropLast) :
    y ∈ (x :: t).dropLast := by
  cases t with
  | nil => simp at h
  | cons z s =>
    rw [List.dropLast_cons₂]
    exact List.mem_cons_of_mem x h

/-- Entries of a running sum list are non-negative as long as only the front
summands are involved, or unconditionally when the total is non-negative. -/
theorem cumsumFrom_getD_nonneg (l : List ℤ) (c : ℤ) (hc : 0 ≤ c)
    (hd : ∀ x ∈ l.dropLast, 0 ≤ x) :
    ∀ j, (j + 1 < l.length ∨ 0 ≤ c + l.sum) → 0 ≤ (cumsumFrom c l).getD j 0 := by
  induction l generalizing c with
  | nil => intro j hj; simp [cumsumFrom]
  | cons x t ih =>
    intro j hj
    have hcx : 0 ≤ c + x := by
      cases t with
      | nil =>
        rcases hj with h | h
        · simp at h
        · simpa using h
      | cons y s =>
        have hx : (0:ℤ) ≤ x := hd x (by rw [List.dropLast_cons₂]; exact List.mem_cons_self x _)
        omega
    cases j with
    | zero => simpa [cumsumFrom] using hcx
    | succ j =>
      show 0 ≤ (cumsumFrom (c + x) t).getD j 0
      apply ih (c + x) hcx
      · intro y hy; exact hd y (mem_dropLast_cons hy)
      · rcases hj with h | h
        · left; simpa using h
        · right
          have e : c + x + t.sum = c + (x :: t).sum := by simp [List.sum_cons]; ring
          omega

/-! Decomposition of the per-pool slicing and its coverage property. -/

/-- Unfolding of numpy.cumsum on a cons. -/
theorem npCumsum_cons (x : ℤ) (l : List ℤ) : npCumsum (x :: l) = x :: cumsumFrom x l := by
  show (0 + x) :: cumsumFrom (0 + x) l = x :: cumsumFrom x l
  rw [zero_add]

/-- Peeling the first count off the cumulative boundary list. -/
theorem npCumsum_cons_cons (c : ℤ) (rest : List ℤ) :
    npCumsum (0 :: c :: rest) = 0 :: (npCumsum (0 :: rest)).map (fun y => c + y) := by
  rw [npCumsum_cons, npCumsum_cons]
  show 0 :: ((0 + c) :: cumsumFrom (0 + c) rest)
      = 0 :: (0 :: cumsumFrom 0 rest).map (fun y => c + y)
  rw [List.map_cons, ← cumsumFrom_shift rest c 0, zero_add, add_zero]

/-- Length of the cumulative boundary list. -/
theorem length_npCumsum (l : List ℤ) : (npCumsum l).length = l.length :=
  length_cumsumFrom 0 l

/-- The first cumulative boundary is zero. -/
theorem npCumsum_getD_zero (l : List ℤ) : (npCumsum (0 :: l)).getD 0 0 = 0 := by
  rw [npCumsum_cons]
  rfl

/-- Entry k of a list mapped by addition with c, inside the range. -/
theorem getD_map_add (c : ℤ) (l : List ℤ) (k : ℕ) (h : k < l.length) :
    (l.map (fun y => c + y)).getD k 0 = c + l.getD k 0 := by
  induction l generalizing k with
  | nil => simp at h
  | cons x t ih =>
    cases k with
    | zero => simp
    | succ k => simpa using ih k (by simpa using h)

/-- Peeling the first slice off the per-pool slicing. -/
theorem sliceRanges_cons_eq (pool : List α) (c : ℤ) (rest : List ℤ) :
    sliceRanges pool (c :: rest) (rest.length + 1)
      = pySlice pool 0 (c + (npCumsum (0 :: rest)).getD 0 0)
        :: (List.range rest.length).map (fun i =>
            pySlice pool (c + (npCumsum (0 :: rest)).getD i 0)
              (c + (npCumsum (0 :: rest)).getD (i + 1) 0)) := by
  have hlen : (npCumsum (0 :: rest)).length = rest.length + 1 := by
    rw [length_npCumsum]; rfl
  unfold sliceRanges
  rw [npCumsum_cons_cons, List.range_succ_eq_map, List.map_cons, List.map_map]
  congr 1
  · apply List.map_congr_left
    intro i hi
    rw [List.mem_range] at hi
    simp only [Function.comp_apply]
    rw [List.getD_cons_succ, List.getD_cons_succ,
      getD_map_add c _ i (by omega), getD_map_add c _ (i + 1) (by omega)]

/-- The slices of a pool along the cumulative counts cover the pool exactly:
the front counts are non-negative and all counts sum to the pool size, the
forced last count being allowed to be negative. -/
theorem sliceRanges_join (counts : List ℤ) : ∀ (pool : List α),
    counts ≠ [] → (∀ x ∈ counts.dropLast, 0 ≤ x) →
    counts.sum = (pool.length : ℤ) →
    (sliceRanges pool counts counts.length).flatten = pool := by
  induction counts with
  | nil => intro pool h1 _ _; exact absurd rfl h1
  | cons c rest ih =>
    intro pool _ h2 h3
    cases rest with
    | nil =>
      have hc : c = (pool.length : ℤ) := by simpa using h3
      have h1 : sliceRanges pool [c] 1
          = [pySlice pool 0 (c + (npCumsum (0 :: ([] : List ℤ))).getD 0 0)] := by
        have := sliceRanges_cons_eq pool c []
        simpa using this
      show (sliceRanges pool [c] 1).flatten = pool
      rw [h1, npCumsum_getD_zero, add_zero]
      have hc0 : (0:ℤ) ≤ c := by omega
      rw [List.flatten_cons, List.flatten_nil, List.append_nil, pySlice_zero pool c hc0]
      have : c.toNat = pool.length := by omega
      rw [this, List.take_length]
    | cons r rs =>
      have hc0 : (0:ℤ) ≤ c := h2 c (by rw [List.dropLast_cons₂]; exact List.mem_cons_self _ _)
      set D := npCumsum (0 :: r :: rs) with hD
      have hrest2 : ∀ x ∈ (r :: rs).dropLast, 0 ≤ x := fun x hx => h2 x (mem_dropLast_cons hx)
      have hsum : c + (r :: rs).sum = (pool.length : ℤ) := by
        simpa [List.sum_cons] using h3
      have hkey : sliceRanges pool (c :: r :: rs) (c :: r :: rs).length
          = pySlice pool 0 (c + D.getD 0 0)
            :: (List.range (r :: rs).length).map (fun i =>
                pySlice pool (c + D.getD i 0) (c + D.getD (i + 1) 0)) :=
        sliceRanges_cons_eq pool c (r :: rs)
      have hD0 : D.getD 0 0 = 0 := npCumsum_getD_zero _
      by_cases hcm : c ≤ (pool.length : ℤ)
      · have hDnn : ∀ j, 0 ≤ D.getD j 0 := by
          intro j
          rw [hD, npCumsum_cons]
          cases j with
          | zero => simp
          | succ j =>
            rw [List.getD_cons_succ]
            exact cumsumFrom_getD_nonneg (r :: rs) 0 le_rfl hrest2 j
              (Or.inr (by simp only [zero_add]; omega))
        have hshift : ∀ i, pySlice pool (c + D.getD i 0) (c + D.getD (i + 1) 0)
            = pySlice (pool.drop c.toNat) (D.getD i 0) (D.getD (i + 1) 0) :=
          fun i => pySlice_shift pool c _ _ hc0 (hDnn i) (hDnn (i + 1))
        have hdroplen : ((pool.drop c.toNat).length : ℤ) = (pool.length : ℤ) - c := by
          rw [List.length_drop]; omega
        have hIH : (sliceRanges (pool.drop c.toNat) (r :: rs) (r :: rs).length).flatten
            = pool.drop c.toNat :=
          ih (pool.drop c.toNat) (by simp) hrest2 (by omega)
        rw [hkey, List.flatten_cons]
        have htail : (List.range (r :: rs).length).map (fun i =>
              pySlice pool (c + D.getD i 0) (c + D.getD (i + 1) 0))
            = sliceRanges (pool.drop c.toNat) (r :: rs) (r :: rs).length := by
          unfold sliceRanges
          apply List.map_congr_left
          intro i hi
          rw [hshift i]
        rw [htail, hIH, hD0, add_zero, pySlice_zero pool c hc0]
        exact List.take_append_drop c.toNat pool
      · push_neg at hcm
        have hDnn2 : ∀ i, i < (r :: rs).length → 0 ≤ D.getD i 0 := by
          intro i hi
          rw [hD, npCumsum_cons]
          cases i with
          | zero => simp
          | succ i =>
            rw [List.getD_cons_succ]
            exact cumsumFrom_getD_nonneg (r :: rs) 0 le_rfl hrest2 i
              (Or.inl (by simpa using hi))
        rw [hkey, List.flatten_cons, hD0, add_zero, pySlice_zero pool c hc0]
        have htake : pool.take c.toNat = pool := List.take_of_length_le (by omega)
        have hnil : ((List.range (r :: rs).length).map (fun i =>
            pySlice pool (c + D.getD i 0) (c + D.getD (i + 1) 0))).flatten = [] := by
          rw [List.flatten_eq_nil_iff]
          intro piece hp
          rw [List.mem_map] at hp
          obtain ⟨i, hi, rfl⟩ := hp
          rw [List.mem_range] at hi
          exact pySlice_ge_empty pool _ _ (by have := hDnn2 i hi; omega)
            (by have := hDnn2 i hi; omega)
        rw [hnil, List.append_nil, htake]

/-! Lemmas about fractions_to_counts and poolPieces. -/

/-- Rounding half to even preserves non-negativity. -/
theorem roundHalfEven_nonneg (q : ℚ) (hq : 0 ≤ q) : 0 ≤ roundHalfEven q := by
  unfold roundHalfEven
  have hf : 0 ≤ Int.floor q := Int.floor_nonneg.2 hq
  split
  · exact hf
  · split
    · omega
    · split <;> omega

/-- The counts always sum to n, by the forced last entry. -/
theorem fractions_to_counts_sum (fracs : List ℚ) (n : ℕ) :
    (fractions_to_counts fracs n).sum = (n : ℤ) := by
  unfold fractions_to_counts
  rw [List.sum_append, List.sum_cons, List.sum_nil]
  ring

/-- The counts list has one entry per fraction. -/
theorem fractions_to_counts_length (fracs : List ℚ) (n : ℕ) (h : fracs ≠ []) :
    (fractions_to_counts fracs n).length = fracs.length := by
  unfold fractions_to_counts
  rw [List.length_append, List.length_dropLast, List.length_map]
  have : fracs.length ≠ 0 := fun hc => h (List.length_eq_zero.1 hc)
  simp
  omega

/-- All but the last count are the roundings of n times the fractions. -/
theorem fractions_to_counts_dropLast (fracs : List ℚ) (n : ℕ) :
    (fractions_to_counts fracs n).dropLast
      = (fracs.map (fun frac => roundHalfEven ((n : ℚ) * frac))).dropLast := by
  unfold fractions_to_counts
  exact List.dropLast_concat

/-- The front counts are non-negative when the fractions are non-negative. -/
theorem fractions_to_counts_dropLast_nonneg (fracs : List ℚ) (n : ℕ)
    (h : ∀ q ∈ fracs, 0 ≤ q) :
    ∀ c ∈ (fractions_to_counts fracs n).dropLast, 0 ≤ c := by
  intro c hc
  rw [fractions_to_counts_dropLast] at hc
  have hc2 : c ∈ fracs.map (fun frac => roundHalfEven ((n : ℚ) * frac)) :=
    (List.dropLast_sublist _).subset hc
  rw [List.mem_map] at hc2
  obtain ⟨q, hq, rfl⟩ := hc2
  exact roundHalfEven_nonneg _ (mul_nonneg (by positivity) (h q hq))

/-- The last count is n minus the sum of the earlier counts. -/
theorem fractions_to_counts_getLast (fracs : List ℚ) (n : ℕ) :
    (fractions_to_counts fracs n).getLast?
      = some ((n : ℤ) - (fractions_to_counts fracs n).dropLast.sum) := by
  rw [fractions_to_counts_dropLast]
  unfold fractions_to_counts
  rw [List.getLast?_concat]

/-- One slice per split. -/
theorem length_poolPieces (fracs : List ℚ) (numSplits : ℕ) (pool : List α) :
    (poolPieces fracs numSplits pool).length = numSplits := by
  simp [poolPieces, sliceRanges]

/-- The slices of a pool cover the pool exactly, for a non-empty list of
non-negative fractions. -/
theorem poolPieces_flatten (fracs : List ℚ) (pool : List α)
    (h1 : fracs ≠ []) (h2 : ∀ q ∈ fracs, 0 ≤ q) :
    (poolPieces fracs fracs.length pool).flatten = pool := by
  unfold poolPieces
  have hlen : (fractions_to_counts fracs pool.length).length = fracs.length :=
    fractions_to_counts_length fracs pool.length h1
  rw [← hlen]
  apply sliceRanges_join
  · intro hc
    rw [hc] at hlen
    exact h1 (List.length_eq_zero.1 hlen.symm)
  · exact fractions_to_counts_dropLast_nonneg fracs pool.length h2
  · exact fractions_to_counts_sum fracs pool.length

/-! Permutation bookkeeping for pools and assignments. -/

/-- Moving a singleton from the middle of an append to its end. -/
theorem perm_append_singleton_middle (xs R : List α) (i : α) :
    (xs ++ [i]) ++ R ~ (xs ++ R) ++ [i] := by
  calc (xs ++ [i]) ++ R = xs ++ ([i] ++ R) := by rw [List.append_assoc]
    _ ~ xs ++ (R ++ [i]) := List.Perm.append_left xs List.perm_append_comm
    _ = (xs ++ R) ++ [i] := by rw [List.append_assoc]

/-- Adding an index to the keyed pools appends exactly that index, up to
permutation of the flattened contents. -/
theorem addToPool_flatten_perm (acc : List (ℤ × List ℕ)) (v : ℤ) (i : ℕ) :
    ((addToPool acc v i).map Prod.snd).flatten ~ (acc.map Prod.snd).flatten ++ [i] := by
  induction acc with
  | nil => simp [addToPool]
  | cons p rest ih =>
    obtain ⟨k, xs⟩ := p
    by_cases hk : k = v
    · have e : addToPool ((k, xs) :: rest) v i = (k, xs ++ [i]) :: rest := by
        simp [addToPool, hk]
      rw [e]
      simp only [List.map_cons, List.flatten_cons]
      exact perm_append_singleton_middle _ _ _
    · have e : addToPool ((k, xs) :: rest) v i = (k, xs) :: addToPool rest v i := by
        simp [addToPool, hk]
      rw [e]
      simp only [List.map_cons, List.flatten_cons]
      calc xs ++ ((addToPool rest v i).map Prod.snd).flatten
          ~ xs ++ ((rest.map Prod.snd).flatten ++ [i]) := List.Perm.append_left xs ih
        _ = (xs ++ (rest.map Prod.snd).flatten) ++ [i] := by rw [List.append_assoc]

/-- Folding the grouping step over enumerated pairs appends all the first
components, up to permutation. -/
theorem foldl_addToPool_flatten_perm (ps : List (ℕ × ℤ)) :
    ∀ acc : List (ℤ × List ℕ),
      ((ps.foldl (fun acc p => addToPool acc p.2 p.1) acc).map Prod.snd).flatten
        ~ (acc.map Prod.snd).flatten ++ ps.map Prod.fst := by
  induction ps with
  | nil => intro acc; simp
  | cons p t ih =>
    intro acc
    calc ((t.foldl (fun acc p => addToPool acc p.2 p.1)
            (addToPool acc p.2 p.1)).map Prod.snd).flatten
        ~ ((addToPool acc p.2 p.1).map Prod.snd).flatten ++ t.map Prod.fst := ih _
      _ ~ ((acc.map Prod.snd).flatten ++ [p.1]) ++ t.map Prod.fst :=
          (addToPool_flatten_perm acc p.2 p.1).append_right _
      _ = (acc.map Prod.snd).flatten ++ ([p.1] ++ t.map Prod.fst) := by
          rw [List.append_assoc]
      _ = (acc.map Prod.snd).flatten ++ (p :: t).map Prod.fst := rfl

/-- The pools built from the stratification labels partition the index range:
their flattened contents are a permutation of the range. -/
theorem buildPools_flatten_perm (lab : List ℤ) :
    (buildPools lab).flatten ~ List.range lab.length := by
  unfold buildPools
  have h := foldl_addToPool_flatten_perm lab.enum []
  simpa [List.enum_map_fst] using h

/-- Flattening a pointwise append of two lists of lists of equal length is,
up to permutation, appending the two flattenings. -/
theorem flatten_zipWith_append (A : List (List α)) :
    ∀ B : List (List α), A.length = B.length →
      (List.zipWith (· ++ ·) A B).flatten ~ A.flatten ++ B.flatten := by
  induction A with
  | nil =>
    intro B h
    have hB : B = [] := List.length_eq_zero.1 (by simpa using h.symm)
    subst hB
    simp
  | cons a A ih =>
    intro B h
    cases B with
    | nil => simp at h
    | cons b B =>
      simp only [List.zipWith_cons_cons, List.flatten_cons]
      calc (a ++ b) ++ (List.zipWith (· ++ ·) A B).flatten
          ~ (a ++ b) ++ (A.flatten ++ B.flatten) :=
            List.Perm.append_left _ (ih B (by simpa using h))
        _ ~ (a ++ A.flatten) ++ (b ++ B.flatten) := by
            rw [← Multiset.coe_eq_coe]
            simp only [← Multiset.coe_add]
            abel

/-- The pool loop only moves every pool element into exactly one assignment:
flattened assignments are, up to permutation, the accumulator contents
followed by the pool contents. -/
theorem assignAll_flatten_perm (fracs : List ℚ) (doShuf : Bool)
    (h1 : fracs ≠ []) (h2 : ∀ q ∈ fracs, 0 ≤ q) :
    ∀ (pools : List (List ℕ)) (acc : List (List ℕ)) (g : ℕ),
      acc.length = fracs.length →
      ((assignAll fracs fracs.length doShuf acc pools g).1).flatten
        ~ acc.flatten ++ pools.flatten := by
  intro pools
  induction pools with
  | nil => intro acc g hl; simp [assignAll]
  | cons pool rest ih =>
    intro acc g hl
    show ((assignAll fracs fracs.length doShuf
        (acc.zipWith (· ++ ·) (poolPieces fracs fracs.length
          (if doShuf then pyShuffle pool g else (pool, g)).1)) rest
        (if doShuf then pyShuffle pool g else (pool, g)).2).1).flatten
      ~ acc.flatten ++ (pool :: rest).flatten
    set pl := (if doShuf then pyShuffle pool g else (pool, g)).1 with hpl
    have hplperm : pl ~ pool := by
      rw [hpl]
      cases doShuf with
      | false => exact List.Perm.refl _
      | true => simpa using pyShuffle_perm pool g
    have hlen2 : (acc.zipWith (· ++ ·) (poolPieces fracs fracs.length pl)).length
        = fracs.length := by
      rw [List.length_zipWith, length_poolPieces, hl]
      omega
    calc ((assignAll fracs fracs.length doShuf
            (acc.zipWith (· ++ ·) (poolPieces fracs fracs.length pl)) rest
            (if doShuf then pyShuffle pool g else (pool, g)).2).1).flatten
        ~ (acc.zipWith (· ++ ·) (poolPieces fracs fracs.length pl)).flatten ++ rest.flatten :=
          ih _ _ hlen2
      _ ~ (acc.flatten ++ (poolPieces fracs fracs.length pl).flatten) ++ rest.flatten :=
          (flatten_zipWith_append acc _ (by rw [hl, length_poolPieces])).append_right _
      _ = (acc.flatten ++ pl) ++ rest.flatten := by
          rw [poolPieces_flatten fracs pl h1 h2]
      _ ~ (acc.flatten ++ pool) ++ rest.flatten :=
          (List.Perm.append_left _ hplperm).append_right _
      _ = acc.flatten ++ (pool ++ rest.flatten) := by rw [List.append_assoc]
      _ = acc.flatten ++ (pool :: rest).flatten := by rw [List.flatten_cons]

/-- The pools cover the index range exactly, given well-sized labels. -/
theorem makePools_flatten_perm (n : ℕ) (strat : Option (List ℤ))
    (h : ∀ lab, strat = some lab → lab.length = n) :
    (makePools n strat).flatten ~ List.range n := by
  cases strat with
  | none => simp [makePools]
  | some lab =>
    have hl := h lab rfl
    rw [makePools, ← hl]
    exact buildPools_flatten_perm lab

/-! Resolver and error classification helpers. -/

/-- A valid specification resolves to a non-empty list of non-negative
fractions, one per split entry. -/
theorem resolveFracs_of_valid (splits : List SplitVal) (n : ℕ) (hv : ValidSpec splits n) :
    ∃ fracs, resolveFracs splits n = .ok fracs ∧ fracs ≠ [] ∧
      (∀ q ∈ fracs, 0 ≤ q) ∧ fracs.length = splits.length := by
  obtain ⟨hne, hcase⟩ := hv
  rcases hcase with ⟨hint, hsum⟩ | ⟨hfl, hsum⟩
  · have hisInt : splits.all SplitVal.isInt = true := by
      rw [List.all_eq_true] at hint ⊢
      intro s hs
      have hh := hint s hs
      cases s with
      | int z => rfl
      | float q => simp [SplitVal.isNonnegInt] at hh
    refine ⟨splits.map (fun s => s.toQ / (n : ℚ)), ?_, ?_, ?_, by simp⟩
    · rw [resolveFracs, if_pos hisInt, if_pos hsum]
    · simpa using hne
    · intro q hq
      rw [List.mem_map] at hq
      obtain ⟨s, hs, rfl⟩ := hq
      have hh := List.all_eq_true.1 hint s hs
      have hq0 : 0 ≤ s.toQ := by
        cases s with
        | int z =>
          simp only [SplitVal.isNonnegInt, decide_eq_true_eq] at hh
          simp [SplitVal.toQ]
          exact_mod_cast hh
        | float q => simp [SplitVal.isNonnegInt] at hh
      exact div_nonneg hq0 (by positivity)
  · have hnotInt : ¬ splits.all SplitVal.isInt = true := by
      cases splits with
      | nil => exact absurd rfl hne
      | cons s t =>
        have h0 := List.all_eq_true.1 hfl s (List.mem_cons_self s t)
        intro hall
        have h1 := List.all_eq_true.1 hall s (List.mem_cons_self s t)
        cases s with
        | int z => simp [SplitVal.isPosFloat] at h0
        | float q => simp [SplitVal.isInt] at h1
    have hisF : splits.all SplitVal.isFloat = true := by
      rw [List.all_eq_true] at hfl ⊢
      intro s hs
      have hh := hfl s hs
      cases s with
      | int z => simp [SplitVal.isPosFloat] at hh
      | float q => rfl
    refine ⟨splits.map SplitVal.toQ, ?_, by simpa using hne, ?_, by simp⟩
    · rw [resolveFracs, if_neg hnotInt, if_pos hisF, if_pos hsum]
    · intro q hq
      rw [List.mem_map] at hq
      obtain ⟨s, hs, rfl⟩ := hq
      have hh := List.all_eq_true.1 hfl s hs
      cases s with
      | int z => simp [SplitVal.isPosFloat] at hh
      | float q =>
        simp only [SplitVal.isPosFloat, decide_eq_true_eq] at hh
        simp [SplitVal.toQ]
        exact le_of_lt hh

/-- slice_data never raises a ValueError. -/
theorem slice_data_no_valueError (data : ArrLike α) (idx : List ℕ) (msg : String) :
    slice_data data idx ≠ .error (.valueError msg) := by
  cases data with
  | seq l => simp [slice_data]
  | arr l => by_cases h : idx.all (fun i => decide (i < l.length)) <;> simp [slice_data, h]
  | unsupported l => simp [slice_data]

/-- A failing mapE exposes a failing element. -/
theorem mapE_error (f : β → Except PyError γ) (l : List β) (e : PyError) :
    mapE f l = .error e → ∃ x ∈ l, f x = .error e := by
  induction l with
  | nil => intro h; simp [mapE] at h
  | cons x t ih =>
    intro h
    rw [mapE] at h
    cases hfx : f x with
    | error e2 =>
      rw [hfx] at h
      simp only [Except.error.injEq] at h
      exact ⟨x, List.mem_cons_self x t, by rw [hfx, h]⟩
    | ok y =>
      rw [hfx] at h
      cases hrec : mapE f t with
      | error e2 =>
        rw [hrec] at h
        simp only [Except.error.injEq] at h
        obtain ⟨z, hz, hz2⟩ := ih (by rw [hrec, h])
        exact ⟨z, List.mem_cons_of_mem x hz, hz2⟩
      | ok ys => rw [hrec] at h; simp at h

/-- A successful mapE has one output per input. -/
theorem mapE_ok_length (f : β → Except PyError γ) (l : List β) :
    ∀ ys, mapE f l = .ok ys → ys.length = l.length := by
  induction l with
  | nil => intro ys h; simp [mapE] at h; simp [← h]
  | cons x t ih =>
    intro ys h
    rw [mapE] at h
    cases hfx : f x with
    | error e2 => rw [hfx] at h; simp at h
    | ok y =>
      rw [hfx] at h
      cases hrec : mapE f t with
      | error e2 => rw [hrec] at h; simp at h
      | ok zs =>
        rw [hrec] at h
        simp only [Except.ok.injEq] at h
        rw [← h]
        simpa using ih zs hrec

/-- Every output of a successful mapE is the image of some input. -/
theorem mapE_ok_mem (f : β → Except PyError γ) (l : List β) :
    ∀ ys, mapE f l = .ok ys → ∀ y ∈ ys, ∃ x ∈ l, f x = .ok y := by
  induction l with
  | nil =>
    intro ys h
    simp [mapE] at h
    subst h
    simp
  | cons x t ih =>
    intro ys h
    rw [mapE] at h
    cases hfx : f x with
    | error e2 => rw [hfx] at h; simp at h
    | ok y =>
      rw [hfx] at h
      cases hrec : mapE f t with
      | error e2 => rw [hrec] at h; simp at h
      | ok zs =>
        rw [hrec] at h
        simp only [Except.ok.injEq] at h
        subst h
        intro w hw
        rcases List.mem_cons.1 hw with rfl | hw2
        · exact ⟨x, List.mem_cons_self x t, hfx⟩
        · obtain ⟨z, hz, hz2⟩ := ih zs hrec w hw2
          exact ⟨z, List.mem_cons_of_mem x hz, hz2⟩

/-- The slicing stage never raises a ValueError. -/
theorem sliceAll_no_valueError (inputs : List (ArrLike α)) (K : ℕ) (A : List (List ℕ))
    (msg : String) : sliceAll inputs K A ≠ .error (.valueError msg) := by
  intro h
  obtain ⟨data, _, hdata⟩ := mapE_error _ _ _ h
  obtain ⟨i, _, hi⟩ := mapE_error _ _ _ hdata
  exact slice_data_no_valueError _ _ msg hi

/-- Once the specification validates, split_data cannot raise a ValueError:
every later failure is an IndexError or the descriptive type exception. -/
theorem split_data_no_valueError_of_ok (g : ℕ) (i0 : ArrLike α) (t : List (ArrLike α))
    (splits : List SplitVal) (sh io : Bool) (strat : Option (List ℤ))
    (seed : Option ℕ) (fracs : List ℚ)
    (hres : resolveFracs splits (arrLen i0) = .ok fracs) (msg : String) :
    split_data g ⟨i0 :: t, splits, sh, strat, io, seed⟩ ≠ .error (.valueError msg) := by
  intro hc
  simp only [split_data, hres] at hc
  cases io with
  | true => simp at hc
  | false =>
    simp only [Bool.false_eq_true, if_false] at hc
    cases hs : sliceAll (i0 :: t) splits.length
        ((assignAll fracs splits.length (sh || strat.isSome)
          (List.replicate splits.length []) (makePools (arrLen i0) strat)
          (initSeed g seed)).1) with
    | error e =>
      rw [hs] at hc
      simp only [Except.error.injEq] at hc
      exact sliceAll_no_valueError _ _ _ msg (by rw [hs, hc])
    | ok outs => rw [hs] at hc; simp at hc

/-- A non-empty split list cannot be both all ints and all floats. -/
theorem not_all_int_and_float (splits : List SplitVal) (hne : splits ≠ []) :
    ¬ (splits.all SplitVal.isInt = true ∧ splits.all SplitVal.isFloat = true) := by
  cases splits with
  | nil => exact absurd rfl hne
  | cons s t =>
    rintro ⟨h1, h2⟩
    have g1 := List.all_eq_true.1 h1 s (List.mem_cons_self s t)
    have g2 := List.all_eq_true.1 h2 s (List.mem_cons_self s t)
    cases s <;> simp [SplitVal.isInt, SplitVal.isFloat] at g1 g2

/-! Claim theorems. -/

/-- C3: with a fixed seed and no stratification, split_data is a function of
its arguments alone: the ambient global generator state is irrelevant, so two
calls with identical inputs, splits and shuffle settings return identical
index assignments and slices. -/
theorem split_data_seed_deterministic (g1 g2 : ℕ) (inputs : List (ArrLike α))
    (splits : List SplitVal) (sh io : Bool) (s : ℕ) :
    split_data g1 ⟨inputs, splits, sh, none, io, some s⟩
      = split_data g2 ⟨inputs, splits, sh, none, io, some s⟩ := rfl

/-- C6: when stratification is requested, an explicit request not to shuffle
is ignored: split_data behaves exactly as if shuffle had been set. -/
theorem stratify_forces_shuffle (g : ℕ) (inputs : List (ArrLike α))
    (splits : List SplitVal) (sh io : Bool) (lab : List ℤ) (seed : Option ℕ) :
    split_data g ⟨inputs, splits, sh, some lab, io, seed⟩
      = split_data g ⟨inputs, splits, true, some lab, io, seed⟩ := by
  cases sh <;> rfl

/-- C5: a fraction list whose early roundings exceed the pool size makes the
forced last count negative, and split_data neither checks nor reports this:
the call succeeds, returning empty slices at the end. -/
theorem negative_last_count_unguarded :
    fractions_to_counts [mkRat 3 8, mkRat 3 8, mkRat 3 16, mkRat 1 16] 4
        = [2, 2, 1, -1] ∧
    split_data 0 ⟨[ArrLike.arr ([10, 11, 12, 13] : List ℤ)],
        [SplitVal.float (mkRat 3 8), .float (mkRat 3 8), .float (mkRat 3 16),
          .float (mkRat 1 16)], false, none, true, none⟩
      = .ok (.indices [[0, 1], [2, 3], [], []]) :=
  ⟨by decide, by decide⟩

/-- C4: for a non-empty fraction list, fractions_to_counts returns one count
per fraction, summing exactly to the pool size m, where every count but the
last is the half-to-even rounding of m times its fraction and the last count
is forced to m minus the sum of the earlier counts. -/
theorem fractions_to_counts_spec (fracs : List ℚ) (m : ℕ) (h : fracs ≠ []) :
    (fractions_to_counts fracs m).length = fracs.length ∧
    (fractions_to_counts fracs m).sum = (m : ℤ) ∧
    (fractions_to_counts fracs m).dropLast
      = (fracs.map (fun frac => roundHalfEven ((m : ℚ) * frac))).dropLast ∧
    (fractions_to_counts fracs m).getLast?
      = some ((m : ℤ) - (fractions_to_counts fracs m).dropLast.sum) :=
  ⟨fractions_to_counts_length fracs m h, fractions_to_counts_sum fracs m,
    fractions_to_counts_dropLast fracs m, fractions_to_counts_getLast fracs m⟩

/-- Witness for C4 at the fraction list one half, one half and pool size 3. -/
theorem fractions_to_counts_spec_witness :
    ([mkRat 1 2, mkRat 1 2] ≠ ([] : List ℚ)) ∧
    ((fractions_to_counts [mkRat 1 2, mkRat 1 2] 3).length
        = ([mkRat 1 2, mkRat 1 2] : List ℚ).length ∧
      (fractions_to_counts [mkRat 1 2, mkRat 1 2] 3).sum = ((3 : ℕ) : ℤ) ∧
      (fractions_to_counts [mkRat 1 2, mkRat 1 2] 3).dropLast
        = (([mkRat 1 2, mkRat 1 2] : List ℚ).map
            (fun frac => roundHalfEven (((3 : ℕ) : ℚ) * frac))).dropLast ∧
      (fractions_to_counts [mkRat 1 2, mkRat 1 2] 3).getLast?
        = some (((3 : ℕ) : ℤ) - (fractions_to_counts [mkRat 1 2, mkRat 1 2] 3).dropLast.sum)) :=
  ⟨by decide, fractions_to_counts_spec [mkRat 1 2, mkRat 1 2] 3 (by decide)⟩

/-- C9: building a DictDataset succeeds exactly on all-tensor label dicts, and
with any non-tensor label value it raises a ValueError whose message names the
offending label field and its type. -/
theorem dictDataset_label_validation (name split : String)
    (X_dict Y_dict : List (String × PyVal)) :
    ((∀ p ∈ Y_dict, p.2.isTensor = true) →
      DictDataset.make name split X_dict Y_dict = .ok ⟨name, split, X_dict, Y_dict⟩) ∧
    ((∃ p ∈ Y_dict, p.2.isTensor = false) →
      ∃ q ∈ Y_dict, q.2.isTensor = false ∧
        DictDataset.make name split X_dict Y_dict
          = .error (.valueError ("Label " ++ q.1 ++ " should be torch.Tensor, not "
              ++ q.2.typeName ++ "."))) := by
  constructor
  · intro hall
    have hfind : Y_dict.find? (fun p => ! p.2.isTensor) = none := by
      rw [List.find?_eq_none]
      intro p hp
      simp [hall p hp]
    rw [DictDataset.make, hfind]
  · rintro ⟨p, hp, hbad⟩
    cases hfind : Y_dict.find? (fun p => ! p.2.isTensor) with
    | none =>
      rw [List.find?_eq_none] at hfind
      have hh := hfind p hp
      simp [hbad] at hh
    | some q =>
      have hqmem := List.mem_of_find?_eq_some hfind
      have hqbad := List.find?_some hfind
      refine ⟨q, hqmem, by simpa using hqbad, ?_⟩
      rw [DictDataset.make, hfind]

/-- Witness for C9 at a label dict with one tensor field and one string
field. -/
theorem dictDataset_label_validation_witness :
    (∃ q ∈ [("a", PyVal.tensor []), ("b", PyVal.pyStr "x")], q.2.isTensor = false ∧
      DictDataset.make "ds" "train" [] [("a", PyVal.tensor []), ("b", PyVal.pyStr "x")]
        = .error (.valueError ("Label " ++ q.1 ++ " should be torch.Tensor, not "
            ++ q.2.typeName ++ "."))) ∧
    DictDataset.make "ds" "train" [] [("a", PyVal.tensor [])]
      = .ok ⟨"ds", "train", [], [("a", PyVal.tensor [])]⟩ :=
  ⟨(dictDataset_label_validation "ds" "train" []
      [("a", PyVal.tensor []), ("b", PyVal.pyStr "x")]).2
        ⟨("b", PyVal.pyStr "x"), by decide, by decide⟩,
    (dictDataset_label_validation "ds" "train" [] [("a", PyVal.tensor [])]).1
      (by decide)⟩

/-- C10: split_data reads the sample count off the first input collection
only: with index_only set its whole result ignores the remaining collections,
and whether a ValueError is raised never depends on them, so mismatched
lengths of later collections are not validated. -/
theorem split_data_first_input_only (g : ℕ) (i0 : ArrLike α)
    (t t2 : List (ArrLike α)) (splits : List SplitVal) (sh : Bool)
    (strat : Option (List ℤ)) (seed : Option ℕ) :
    split_data g ⟨i0 :: t, splits, sh, strat, true, seed⟩
      = split_data g ⟨i0 :: t2, splits, sh, strat, true, seed⟩ ∧
    (∀ io : Bool, (∃ msg, split_data g ⟨i0 :: t, splits, sh, strat, io, seed⟩
        = .error (.valueError msg))
      ↔ (∃ msg, split_data g ⟨i0 :: t2, splits, sh, strat, io, seed⟩
        = .error (.valueError msg))) := by
  constructor
  · rfl
  · intro io
    cases hres : resolveFracs splits (arrLen i0) with
    | error e =>
      have h1 : split_data g ⟨i0 :: t, splits, sh, strat, io, seed⟩ = .error e := by
        simp [split_data, hres]
      have h2 : split_data g ⟨i0 :: t2, splits, sh, strat, io, seed⟩ = .error e := by
        simp [split_data, hres]
      rw [h1, h2]
    | ok fracs =>
      constructor
      · rintro ⟨msg, hmsg⟩
        exact absurd hmsg (split_data_no_valueError_of_ok g i0 t splits sh io strat
          seed fracs hres msg)
      · rintro ⟨msg, hmsg⟩
        exact absurd hmsg (split_data_no_valueError_of_ok g i0 t2 splits sh io strat
          seed fracs hres msg)

/-- Filtering enumerated pairs by a predicate on the position and keeping the
values is the same as filtering the ascending position range and reading the
list there. -/
theorem enumFrom_filter_snd (l : List α) : ∀ (k : ℕ) (p : ℕ → Bool),
    ((List.enumFrom k l).filter (fun q => p q.1)).map Prod.snd
      = ((List.range l.length).filter (fun i => p (k + i))).filterMap
          (fun i => l[i]?) := by
  induction l with
  | nil => intro k p; simp
  | cons x t ih =>
    intro k p
    rw [List.enumFrom_cons, List.length_cons, List.range_succ_eq_map]
    have hmapfilter : List.filter (fun i => p (k + i)) ((List.range t.length).map Nat.succ)
        = ((List.range t.length).filter (fun i => p (k + 1 + i))).map Nat.succ := by
      rw [List.filter_map]
      congr 1
      apply List.filter_congr
      intro i _
      have e : k + Nat.succ i = k + 1 + i := by omega
      simp [Function.comp, e]
    have hfm : List.filterMap (fun i => (x :: t)[i]?)
        (((List.range t.length).filter (fun i => p (k + 1 + i))).map Nat.succ)
        = List.filterMap (fun i => t[i]?)
            ((List.range t.length).filter (fun i => p (k + 1 + i))) := by
      rw [List.filterMap_map]
      congr 1
      funext i
      simp [Function.comp]
    by_cases hp : p k
    · simp only [List.filter_cons, hp, if_true, Nat.add_zero, List.map_cons,
        List.filterMap_cons, List.getElem?_cons_zero, hmapfilter, hfm, ih (k + 1) p]
    · simp only [List.filter_cons, hp, Nat.add_zero, hmapfilter]
      rw [if_neg (by simp), if_neg (by simp), hfm, ih (k + 1) p]

/-- The enumeration form of the previous lemma. -/
theorem enum_filter_snd (l : List α) (p : ℕ → Bool) :
    ((l.enum.filter (fun q => p q.1)).map Prod.snd)
      = ((List.range l.length).filter p).filterMap (fun i => l[i]?) := by
  have h := enumFrom_filter_snd l 0 p
  simp only [Nat.zero_add] at h
  exact h

/-- Fancy indexing with in-range indices reads the list in index order. -/
theorem filterMap_getElem_spec (l : List α) : ∀ (idx : List ℕ),
    (∀ i ∈ idx, i < l.length) →
      (idx.filterMap (fun i => l[i]?)).length = idx.length ∧
      ∀ k, k < idx.length →
        (idx.filterMap (fun i => l[i]?))[k]? = l[idx.getD k 0]? := by
  intro idx
  induction idx with
  | nil => intro h; constructor <;> simp
  | cons i t ih =>
    intro h
    have hi : i < l.length := h i (List.mem_cons_self i t)
    have hsome : l[i]? = some l[i] := List.getElem?_eq_getElem hi
    obtain ⟨ih1, ih2⟩ := ih (fun j hj => h j (List.mem_cons_of_mem i hj))
    have hcons : (i :: t).filterMap (fun j => l[j]?)
        = l[i] :: t.filterMap (fun j => l[j]?) := by
      rw [List.filterMap_cons, hsome]
    constructor
    · rw [hcons]
      simpa using ih1
    · intro k hk
      cases k with
      | zero =>
        rw [hcons]
        simp [hsome]
      | succ k =>
        rw [hcons]
        simp only [List.getElem?_cons_succ, List.getD_cons_succ]
        exact ih2 k (by simpa using hk)

/-- C7: list and tuple inputs are sliced by membership of the position in the
index list, keeping original position order and ignoring the order of the
index list; array inputs are sliced by fancy indexing in the order of the
index list itself. -/
theorem slice_data_order_semantics (l : List α) (idx idx2 : List ℕ)
    (hmem : ∀ i, i ∈ idx ↔ i ∈ idx2) (hrange : ∀ i ∈ idx, i < l.length) :
    slice_data (ArrLike.seq l) idx
      = .ok (.seq (((List.range l.length).filter (fun i => i ∈ idx)).filterMap
          (fun i => l[i]?))) ∧
    slice_data (ArrLike.seq l) idx = slice_data (ArrLike.seq l) idx2 ∧
    ∃ r, slice_data (ArrLike.arr l) idx = .ok (.arr r) ∧ r.length = idx.length ∧
      ∀ k, k < idx.length → r[k]? = l[idx.getD k 0]? := by
  refine ⟨?_, ?_, ?_⟩
  · simp only [slice_data]
    rw [enum_filter_snd l (fun i => decide (i ∈ idx))]
  · simp only [slice_data]
    have e : l.enum.filter (fun q => decide (q.1 ∈ idx))
        = l.enum.filter (fun q => decide (q.1 ∈ idx2)) :=
      List.filter_congr (fun x _ => decide_eq_decide.2 (hmem x.1))
    rw [e]
  · have hall : idx.all (fun i => decide (i < l.length)) = true := by
      rw [List.all_eq_true]
      intro i hi
      simpa using hrange i hi
    obtain ⟨h1, h2⟩ := filterMap_getElem_spec l idx hrange
    refine ⟨idx.filterMap (fun i => l[i]?), ?_, h1, h2⟩
    simp only [slice_data, hall, if_true]

/-- Witness for C7 at the list 10, 20, 30 with index lists 2, 0 and
0, 2, 2. -/
theorem slice_data_order_semantics_witness :
    (slice_data (ArrLike.seq ([10, 20, 30] : List ℤ)) [2, 0]
      = .ok (.seq (((List.range ([10, 20, 30] : List ℤ).length).filter
          (fun i => i ∈ [2, 0])).filterMap (fun i => ([10, 20, 30] : List ℤ)[i]?)))) ∧
    slice_data (ArrLike.seq ([10, 20, 30] : List ℤ)) [2, 0]
      = slice_data (ArrLike.seq ([10, 20, 30] : List ℤ)) [0, 2, 2] ∧
    ∃ r, slice_data (ArrLike.arr ([10, 20, 30] : List ℤ)) [2, 0] = .ok (.arr r) ∧
      r.length = ([2, 0] : List ℕ).length ∧
      ∀ k, k < ([2, 0] : List ℕ).length →
        r[k]? = ([10, 20, 30] : List ℤ)[([2, 0] : List ℕ).getD k 0]? :=
  slice_data_order_semantics [10, 20, 30] [2, 0] [0, 2, 2]
    (by intro i; simp [List.mem_cons]; tauto) (by decide)

/-- C2: for a non-empty split list on a non-empty input list, split_data
raises a ValueError exactly when the specification is invalid: all-int
entries not summing to the sample count, all-float entries not summing to
one, or mixed kinds; valid specifications never produce a ValueError. -/
theorem split_data_valueError_iff (g : ℕ) (i0 : ArrLike α) (rest : List (ArrLike α))
    (splits : List SplitVal) (sh io : Bool) (strat : Option (List ℤ))
    (seed : Option ℕ) (hne : splits ≠ []) :
    (∃ msg, split_data g ⟨i0 :: rest, splits, sh, strat, io, seed⟩
        = .error (.valueError msg))
      ↔ ((splits.all SplitVal.isInt = true
            ∧ (splits.map SplitVal.toQ).sum ≠ (arrLen i0 : ℚ))
        ∨ (splits.all SplitVal.isFloat = true ∧ (splits.map SplitVal.toQ).sum ≠ 1)
        ∨ (splits.all SplitVal.isInt = false ∧ splits.all SplitVal.isFloat = false)) := by
  by_cases hI : splits.all SplitVal.isInt = true
  · by_cases hs : (splits.map SplitVal.toQ).sum = (arrLen i0 : ℚ)
    · have hres : resolveFracs splits (arrLen i0)
          = .ok (splits.map (fun s => s.toQ / (arrLen i0 : ℚ))) := by
        rw [resolveFracs, if_pos hI, if_pos hs]
      constructor
      · rintro ⟨msg, hmsg⟩
        exact absurd hmsg (split_data_no_valueError_of_ok g i0 rest splits sh io strat
          seed _ hres msg)
      · rintro (⟨_, hbad⟩ | ⟨hF, _⟩ | ⟨hbad, _⟩)
        · exact absurd hs hbad
        · exact absurd ⟨hI, hF⟩ (not_all_int_and_float splits hne)
        · rw [hI] at hbad
          simp at hbad
    · have hres : resolveFracs splits (arrLen i0)
          = .error (.valueError "Provided split counts must sum to n.") := by
        rw [resolveFracs, if_pos hI, if_neg hs]
      constructor
      · intro _
        exact Or.inl ⟨hI, hs⟩
      · intro _
        exact ⟨"Provided split counts must sum to n.", by simp [split_data, hres]⟩
  · by_cases hF : splits.all SplitVal.isFloat = true
    · by_cases hs : (splits.map SplitVal.toQ).sum = 1
      · have hres : resolveFracs splits (arrLen i0) = .ok (splits.map SplitVal.toQ) := by
          rw [resolveFracs, if_neg hI, if_pos hF, if_pos hs]
        constructor
        · rintro ⟨msg, hmsg⟩
          exact absurd hmsg (split_data_no_valueError_of_ok g i0 rest splits sh io
            strat seed _ hres msg)
        · rintro (⟨hbad, _⟩ | ⟨_, hbad⟩ | ⟨_, hbad⟩)
          · exact absurd hbad hI
          · exact absurd hs hbad
          · rw [hF] at hbad
            simp at hbad
      · have hres : resolveFracs splits (arrLen i0)
            = .error (.valueError "Split fractions must sum to 1.0.") := by
          rw [resolveFracs, if_neg hI, if_pos hF, if_neg hs]
        constructor
        · intro _
          exact Or.inr (Or.inl ⟨hF, hs⟩)
        · intro _
          exact ⟨"Split fractions must sum to 1.0.", by simp [split_data, hres]⟩
    · have hres : resolveFracs splits (arrLen i0)
          = .error (.valueError "Splits must contain all ints or all floats.") := by
        rw [resolveFracs, if_neg hI, if_neg hF]
      constructor
      · intro _
        exact Or.inr (Or.inr ⟨by simpa using hI, by simpa using hF⟩)
      · intro _
        exact ⟨"Splits must contain all ints or all floats.", by simp [split_data, hres]⟩

/-- Witness for C2 on three samples: the int spec 1, 1 does not sum to 3 and
raises, while the int spec 1, 2 sums to 3 and does not raise. -/
theorem split_data_valueError_iff_witness :
    ((∃ msg, split_data 0 ⟨[ArrLike.seq ([5, 6, 7] : List ℤ)],
          [SplitVal.int 1, .int 1], true, none, true, none⟩
        = .error (.valueError msg))
      ↔ (([SplitVal.int 1, .int 1].all SplitVal.isInt = true
            ∧ ([SplitVal.int 1, .int 1].map SplitVal.toQ).sum
              ≠ (arrLen (ArrLike.seq ([5, 6, 7] : List ℤ)) : ℚ))
        ∨ ([SplitVal.int 1, .int 1].all SplitVal.isFloat = true
            ∧ ([SplitVal.int 1, .int 1].map SplitVal.toQ).sum ≠ 1)
        ∨ ([SplitVal.int 1, .int 1].all SplitVal.isInt = false
            ∧ [SplitVal.int 1, .int 1].all SplitVal.isFloat = false))) ∧
    ((∃ msg, split_data 0 ⟨[ArrLike.seq ([5, 6, 7] : List ℤ)],
          [SplitVal.int 1, .int 2], true, none, true, none⟩
        = .error (.valueError msg))
      ↔ (([SplitVal.int 1, .int 2].all SplitVal.isInt = true
            ∧ ([SplitVal.int 1, .int 2].map SplitVal.toQ).sum
              ≠ (arrLen (ArrLike.seq ([5, 6, 7] : List ℤ)) : ℚ))
        ∨ ([SplitVal.int 1, .int 2].all SplitVal.isFloat = true
            ∧ ([SplitVal.int 1, .int 2].map SplitVal.toQ).sum ≠ 1)
        ∨ ([SplitVal.int 1, .int 2].all SplitVal.isInt = false
            ∧ [SplitVal.int 1, .int 2].all SplitVal.isFloat = false))) :=
  ⟨split_data_valueError_iff 0 (ArrLike.seq ([5, 6, 7] : List ℤ)) []
      [SplitVal.int 1, .int 1] true true none none (by decide),
    split_data_valueError_iff 0 (ArrLike.seq ([5, 6, 7] : List ℤ)) []
      [SplitVal.int 1, .int 2] true true none none (by decide)⟩

/-- C8: with index_only unset, a successful split_data call returns a flat
list of one slice per split when exactly one input collection was given, and
a collections-major list of per-collection slice lists when several were. -/
theorem split_data_output_shape (g : ℕ) (i0 : ArrLike α) (rest : List (ArrLike α))
    (splits : List SplitVal) (sh : Bool) (strat : Option (List ℤ)) (seed : Option ℕ)
    (r : SplitResult α)
    (hr : split_data g ⟨i0 :: rest, splits, sh, strat, false, seed⟩ = .ok r) :
    (rest = [] → ∃ s, r = .single s ∧ s.length = splits.length) ∧
    (rest ≠ [] → ∃ ss, r = .multi ss ∧ ss.length = (i0 :: rest).length ∧
      ∀ s ∈ ss, s.length = splits.length) := by
  simp only [split_data] at hr
  cases hres : resolveFracs splits (arrLen i0) with
  | error e =>
    rw [hres] at hr
    simp at hr
  | ok fracs =>
    rw [hres] at hr
    simp only [Bool.false_eq_true, if_false] at hr
    cases hs : sliceAll (i0 :: rest) splits.length
        ((assignAll fracs splits.length (sh || strat.isSome)
          (List.replicate splits.length []) (makePools (arrLen i0) strat)
          (initSeed g seed)).1) with
    | error e =>
      rw [hs] at hr
      simp at hr
    | ok outs =>
      rw [hs] at hr
      simp only [Except.ok.injEq] at hr
      subst hr
      have hlen : outs.length = (i0 :: rest).length := mapE_ok_length _ _ _ hs
      have hmem : ∀ o ∈ outs, o.length = splits.length := by
        intro o ho
        obtain ⟨data, _, hdata⟩ := mapE_ok_mem _ _ _ hs o ho
        have hl2 := mapE_ok_length _ _ _ hdata
        simpa [List.length_range] using hl2
      constructor
      · intro hrest
        subst hrest
        cases outs with
        | nil => simp at hlen
        | cons o t2 =>
          cases t2 with
          | nil => exact ⟨o, rfl, hmem o (List.mem_cons_self o _)⟩
          | cons o2 t3 => simp at hlen
      · intro hrest
        cases outs with
        | nil => simp at hlen
        | cons o t2 =>
          cases t2 with
          | nil =>
            cases rest with
            | nil => exact absurd rfl hrest
            | cons r2 t4 => simp at hlen
          | cons o2 t3 => exact ⟨o :: o2 :: t3, rfl, hlen, hmem⟩

/-- Witness for C8 on two input collections, two samples and the int spec
1, 1. -/
theorem split_data_output_shape_witness :
    (([ArrLike.seq ([7, 8] : List ℤ)] : List (ArrLike ℤ)) = [] →
      ∃ s, (SplitResult.multi [[ArrLike.arr ([5] : List ℤ), ArrLike.arr [6]],
          [ArrLike.seq [7], ArrLike.seq [8]]]) = .single s
        ∧ s.length = ([SplitVal.int 1, .int 1] : List SplitVal).length) ∧
    (([ArrLike.seq ([7, 8] : List ℤ)] : List (ArrLike ℤ)) ≠ [] →
      ∃ ss, (SplitResult.multi [[ArrLike.arr ([5] : List ℤ), ArrLike.arr [6]],
          [ArrLike.seq [7], ArrLike.seq [8]]]) = .multi ss
        ∧ ss.length = (ArrLike.arr ([5, 6] : List ℤ) :: [ArrLike.seq ([7, 8] : List ℤ)]).length
        ∧ ∀ s ∈ ss, s.length = ([SplitVal.int 1, .int 1] : List SplitVal).length) :=
  split_data_output_shape 0 (ArrLike.arr ([5, 6] : List ℤ)) [ArrLike.seq [7, 8]]
    [SplitVal.int 1, .int 1] false none none
    (.multi [[ArrLike.arr [5], ArrLike.arr [6]], [ArrLike.seq [7], ArrLike.seq [8]]])
    (by decide)

/-- C1: for any sample count, any valid split specification, and any shuffle,
stratification and seed settings, the index lists returned by split_data are
pairwise disjoint and their union, as a set, is exactly the set of row
indices below the sample count. -/
theorem split_data_partition (g : ℕ) (i0 : ArrLike α) (rest : List (ArrLike α))
    (splits : List SplitVal) (sh : Bool) (strat : Option (List ℤ)) (seed : Option ℕ)
    (A : List (List ℕ)) (hv : ValidSpec splits (arrLen i0))
    (hstrat : ∀ lab, strat = some lab → lab.length = arrLen i0)
    (hr : split_data g ⟨i0 :: rest, splits, sh, strat, true, seed⟩ = .ok (.indices A)) :
    A.Pairwise List.Disjoint ∧ ∀ x, (∃ l ∈ A, x ∈ l) ↔ x < arrLen i0 := by
  obtain ⟨fracs, hres, hfne, hfnn, hflen⟩ := resolveFracs_of_valid splits (arrLen i0) hv
  simp only [split_data, hres, if_true, Except.ok.injEq, SplitResult.indices.injEq] at hr
  subst hr
  have hperm : ((assignAll fracs splits.length (sh || strat.isSome)
      (List.replicate splits.length []) (makePools (arrLen i0) strat)
      (initSeed g seed)).1).flatten ~ List.range (arrLen i0) := by
    rw [← hflen]
    calc ((assignAll fracs fracs.length (sh || strat.isSome)
            (List.replicate fracs.length []) (makePools (arrLen i0) strat)
            (initSeed g seed)).1).flatten
        ~ (List.replicate fracs.length ([] : List ℕ)).flatten
            ++ (makePools (arrLen i0) strat).flatten :=
          assignAll_flatten_perm fracs _ hfne hfnn _ _ _ (by simp)
      _ = (makePools (arrLen i0) strat).flatten := by
          rw [List.flatten_replicate_nil, List.nil_append]
      _ ~ List.range (arrLen i0) := makePools_flatten_perm _ _ hstrat
  have hnodup : ((assignAll fracs splits.length (sh || strat.isSome)
      (List.replicate splits.length []) (makePools (arrLen i0) strat)
      (initSeed g seed)).1).flatten.Nodup :=
    hperm.nodup_iff.2 (List.nodup_range _)
  refine ⟨(List.nodup_flatten.1 hnodup).2, ?_⟩
  intro x
  rw [← List.mem_flatten, hperm.mem_iff, List.mem_range]

/-- Witness for C1 on four samples, the int spec 2, 2, stratification by the
labels 0, 1, 0, 1, shuffling with seed 3. -/
theorem split_data_partition_witness :
    ValidSpec [SplitVal.int 2, .int 2] (arrLen (ArrLike.seq [true, true, true, true])) ∧
    (([[2, 1], [0, 3]] : List (List ℕ)).Pairwise List.Disjoint ∧
      ∀ x, (∃ l ∈ ([[2, 1], [0, 3]] : List (List ℕ)), x ∈ l)
        ↔ x < arrLen (ArrLike.seq [true, true, true, true])) :=
  ⟨⟨by decide, Or.inl ⟨by decide, by decide⟩⟩,
    split_data_partition 0 (ArrLike.seq [true, true, true, true]) []
      [SplitVal.int 2, .int 2] true (some [0, 1, 0, 1]) (some 3) [[2, 1], [0, 3]]
      ⟨by decide, Or.inl ⟨by decide, by decide⟩⟩
      (by
        intro lab h
        injection h with h2
        subst h2
        rfl)
      (by decide)⟩
